import Mathlib

set_option maxHeartbeats 1000000
set_option maxRecDepth 4000

/-!
Shallow embedding of the resolution theorem prover in src/fol.py.

Modelling conventions:
* a Python string is a `List Char` (`Str`);
* a Python frozenset of literal strings is a `Finset Str`, and a set of
  clauses is a `Finset (Finset Str)`;
* a Python dict used as a substitution is an association list
  (`List (Str × Str)`); the code only ever adds fresh keys, which a dict
  stores in insertion order, so appending is faithful;
* a raised exception (the ValueError from tuple unpacking in tokenize) and
  exhausted recursion are both `Option.none`;
* the `print` in unify's fall-through failure branch is modelled by an
  explicit output transcript (a `List Str` of printed lines) returned next
  to the result, since the function has no other side channel;
* recursive Python functions whose termination is not structural carry an
  explicit fuel argument; every claim is stated with enough fuel.
-/

abbrev Str := List Char

abbrev Subst := List (Str × Str)

/-- Association-list lookup, first match wins (Python dict indexing /
membership). -/
def lookupSub (k : Str) : Subst → Option Str
  | [] => none
  | (a, v) :: rest => if a = k then some v else lookupSub k rest

/-- Assigning a fresh key into a Python dict stores it after the existing
entries (insertion order). -/
def insertSub (k v : Str) (s : Subst) : Subst := s ++ [(k, v)]

/-- Split a list at the first occurrence of `c` (Python `s.split(c, 1)`
when it yields two pieces); `none` when `c` does not occur (the two-way
unpacking in the Python caller then raises ValueError). -/
def splitFirst (c : Char) : Str → Option (Str × Str)
  | [] => none
  | a :: rest =>
    if a = c then some ([], rest)
    else (splitFirst c rest).map (fun p => (a :: p.1, p.2))

/-- Split a list at every occurrence of `c` (Python `s.split(c)`); the
result is always nonempty and `splitAll c [] = [[]]` as in Python. -/
def splitAll (c : Char) : Str → List Str
  | [] => [[]]
  | a :: rest =>
    match splitAll c rest with
    | [] => [[]]
    | h :: t => if a = c then [] :: h :: t else (a :: h) :: t

/-- Model of Python's whitespace test (what `str.strip()` removes, the
per-character set of `str.isspace`): ASCII 09-0D, 1C-1F and space, NEL
(85), NBSP (A0), Ogham space mark (1680), the 2000-200A range, line and
paragraph separators (2028, 2029), 202F, 205F and ideographic space
(3000). -/
def pyIsSpace (c : Char) : Bool :=
  decide (c.toNat ∈ [0x09, 0x0a, 0x0b, 0x0c, 0x0d, 0x1c, 0x1d, 0x1e, 0x1f,
    0x20, 0x85, 0xa0, 0x1680, 0x2028, 0x2029, 0x202f, 0x205f, 0x3000]) ||
  decide (0x2000 ≤ c.toNat ∧ c.toNat ≤ 0x200a)

/-- Python `str.strip()`: remove leading and trailing whitespace. -/
def strip (l : Str) : Str :=
  ((l.dropWhile pyIsSpace).reverse.dropWhile pyIsSpace).reverse

/-- Model of `fol.tokenize`: `sentence[:-1].split('(', 1)`, then split the second
piece on every comma and strip each fragment.  `none` models the
ValueError raised by the tuple unpacking when `sentence[:-1]` contains no
`'('`; no other validation is performed. -/
def tokenize (sentence : Str) : Option (Str × List Str) :=
  (splitFirst '(' sentence.dropLast).map
    (fun p => (p.1, (splitAll ',' p.2).map strip))

/-- Model of `re.match(r'^[a-z]$', term)`: one ASCII lowercase letter,
optionally followed by a single trailing newline — in CPython, `$` also
matches just before a newline that ends the string. -/
def isVarStr : Str → Bool
  | [c] => decide ('a' ≤ c ∧ c ≤ 'z')
  | [c, d] => decide ('a' ≤ c ∧ c ≤ 'z') && decide (d = '\n')
  | _ => false

/-- The line printed by unify's fall-through failure branch:
`f"Failed to unify: {term1} with {term2}"`. -/
def failMsg (t1 t2 : Str) : Str :=
  "Failed to unify: ".toList ++ t1 ++ " with ".toList ++ t2

/-- Work items for the one fuelled recursion implementing the mutually
recursive trio `unify` / `unify_var` / the argument loop inside `unify`. -/
inductive UJob where
  | terms : Str → Str → UJob
  | var : Str → Str → UJob
  | args : List Str → List Str → UJob

/-- The bodies of `fol.unify` (`UJob.terms`), `fol.unify_var` (`UJob.var`)
and the `for arg1, arg2 in zip(args1, args2)` loop of `fol.unify`
(`UJob.args`), fuelled so that the recursion is structural.  The first
component of the result is `some` of the returned dict — the code returns
the empty dict `{}` for failure — while `none` models a RecursionError
(fuel exhausted) or a ValueError escaping from `tokenize`.  The second
component is the transcript of printed lines. -/
def unifyAux : Nat → UJob → Subst → Option Subst × List Str
  | 0, _, _ => (none, [])
  | fuel + 1, UJob.terms term1 term2, substitution =>
    if term1 = term2 then (some substitution, [])
    else if isVarStr term1 then unifyAux fuel (UJob.var term1 term2) substitution
    else if isVarStr term2 then unifyAux fuel (UJob.var term2 term1) substitution
    else if term1 = '¬' :: term2 then (some substitution, [])
    else if term2 = '¬' :: term1 then (some substitution, [])
    else if ('(' ∈ term1) ∧ ('(' ∈ term2) then
      match tokenize term1, tokenize term2 with
      | some (func1, args1), some (func2, args2) =>
        if func1 ≠ func2 ∨ args1.length ≠ args2.length then (some [], [])
        else unifyAux fuel (UJob.args args1 args2) substitution
      | _, _ => (none, [])
    else (some [], [failMsg term1 term2])
  | fuel + 1, UJob.var v x, substitution =>
    match lookupSub v substitution with
    | some t => unifyAux fuel (UJob.terms t x) substitution
    | none =>
      match lookupSub x substitution with
      | some t => unifyAux fuel (UJob.terms v t) substitution
      | none =>
        if v ≠ x then (some (insertSub v x substitution), [])
        else (some substitution, [])
  | _ + 1, UJob.args [] _, substitution => (some substitution, [])
  | _ + 1, UJob.args (_ :: _) [], substitution => (some substitution, [])
  | fuel + 1, UJob.args (a :: restA) (b :: restB), substitution =>
    match unifyAux fuel (UJob.terms a b) substitution with
    | (none, log) => (none, log)
    | (some s, log) =>
      if s = [] then (some [], log)
      else
        match unifyAux fuel (UJob.args restA restB) s with
        | (r, log2) => (r, log ++ log2)

/-- Model of `fol.unify`. -/
def unify (fuel : Nat) (term1 term2 : Str) (substitution : Subst) :
    Option Subst × List Str :=
  unifyAux fuel (UJob.terms term1 term2) substitution

/-- Model of `fol.unify_var`. -/
def unify_var (fuel : Nat) (v x : Str) (substitution : Subst) :
    Option Subst × List Str :=
  unifyAux fuel (UJob.var v x) substitution

/-- Model of `fol.negate_literal`: strip a leading `'¬'`, else prepend one. -/
def negate_literal (literal : Str) : Str :=
  if literal.head? = some '¬' then literal.tail else '¬' :: literal

/-- Model of `fol.negate`: negate every literal of the clause. -/
def negate (query : Finset Str) : Finset Str := query.image negate_literal

/-- Python `','.join`. -/
def joinSep (sep : Str) : List Str → Str
  | [] => []
  | [a] => a
  | a :: b :: rest => a ++ sep ++ joinSep sep (b :: rest)

/-- Flatten a list of optional results; `none` when any element is `none`
(an exception escaping a Python list comprehension). -/
def seqOpt : List (Option Str) → Option (List Str)
  | [] => some []
  | none :: _ => none
  | some a :: rest => (seqOpt rest).map (fun l => a :: l)

/-- Model of `fol.apply_single_substitution`, fuelled: a literal that is a dict key
is replaced by its value outright; a compound literal is tokenized, its
arguments rewritten recursively and the text rebuilt; anything else is
returned unchanged. -/
def apply_single_substitution : Nat → Str → Subst → Option Str
  | 0, _, _ => none
  | fuel + 1, literal, substitution =>
    match lookupSub literal substitution with
    | some v => some v
    | none =>
      if '(' ∈ literal then
        match tokenize literal with
        | some (func_name, terms) =>
          match seqOpt (terms.map
              (fun t => apply_single_substitution fuel t substitution)) with
          | some ts => some (func_name ++ ('(' :: (joinSep [','] ts ++ [')'])))
          | none => none
        | none => none
      else some literal

/-- Model of `fol.apply_substitution`: apply to every literal and rebuild the
frozenset; `none` when any literal raises. -/
def apply_substitution (fuel : Nat) (clause : Finset Str)
    (substitution : Subst) : Option (Finset Str) :=
  if ∀ l ∈ clause, (apply_single_substitution fuel l substitution).isSome then
    some (clause.image
      (fun l => (apply_single_substitution fuel l substitution).getD []))
  else none

/-- Model of `fol.resolve_clause`: for each literal of `clause1` whose text with a
prepended `'¬'` occurs in `clause2`, collect the clause obtained by
removing the pair. -/
def resolve_clause (clause1 clause2 : Finset Str) : Finset (Finset Str) :=
  (clause1.filter (fun l => ('¬' :: l) ∈ clause2)).image
    (fun l => (clause1.erase l) ∪ (clause2.erase ('¬' :: l)))

/-- One pass of the driver's double loop in `fol.inference_by_resolution`:
all resolvents of ordered pairs of distinct clauses. -/
def stepResolvents (clauses : Finset (Finset Str)) : Finset (Finset Str) :=
  clauses.biUnion (fun c1 => clauses.biUnion (fun c2 =>
    if c1 ≠ c2 then resolve_clause c1 c2 else ∅))

/-- The `while True` saturation loop of `fol.inference_by_resolution`.
The Python code returns True the moment one pair yields the empty clause;
since that early return fires exactly when the empty clause is among the
pass's resolvents, checking the collected set gives the same result.
`none` is returned only when the fuel runs out. -/
def inferLoop : Nat → Finset (Finset Str) → Option Bool
  | 0, _ => none
  | fuel + 1, clauses =>
    let nr := stepResolvents clauses
    if (∅ : Finset Str) ∈ nr then some true
    else if nr ⊆ clauses then some false
    else inferLoop fuel (clauses ∪ nr)

/-- Model of `fol.inference_by_resolution`: seed the working set with the knowledge
base and the negated query, then saturate. -/
def inference_by_resolution (fuel : Nat) (kb : Finset (Finset Str))
    (query : Finset Str) : Option Bool :=
  inferLoop fuel (kb ∪ {negate query})

/-- All literal texts occurring in some clause of the set. -/
def allLits (clauses : Finset (Finset Str)) : Finset Str := clauses.sup id

/-- The driver's working set after `n` completed iterations of the
saturation loop (the loop exits aside). -/
def workingSet (start : Finset (Finset Str)) : Nat → Finset (Finset Str)
  | 0 => start
  | n + 1 => workingSet start n ∪ stepResolvents (workingSet start n)

/-- Whether `pat` occurs at the head of the second list. -/
def leadsWith : Str → Str → Bool
  | [], _ => true
  | _ :: _, [] => false
  | a :: pr, b :: tr => (a == b) && leadsWith pr tr

/-- Whether `pat` occurs contiguously somewhere in the second list. -/
def hasSeg (pat : Str) : Str → Bool
  | [] => leadsWith pat []
  | b :: rest => leadsWith pat (b :: rest) || hasSeg pat rest

/-- One dependency step of a substitution: `a` is bound, and `b` occurs in
the term it is bound to. -/
def depStep (sub : Subst) (a b : Str) : Prop :=
  ∃ v, lookupSub a sub = some v ∧ hasSeg b v = true

/-- Spec §3: a substitution is acyclic when no variable maps, directly or
transitively, to a term containing itself. -/
def Acyclic (sub : Subst) : Prop :=
  ∀ a, ¬ Relation.TransGen (depStep sub) a a

/-- An atomic token: no parenthesis, no comma, no character that Python
strips as whitespace. -/
def Atom (l : Str) : Prop :=
  ('(' ∉ l) ∧ (',' ∉ l) ∧ ∀ c ∈ l, pyIsSpace c = false

/-- A literal in the flat canonical grammar `Name(arg1,...,argN)` with
atomic arguments, or containing no parenthesis at all. -/
def FlatLit (l : Str) : Prop :=
  ('(' ∉ l) ∨
  ∃ name args, l = name ++ ('(' :: (joinSep [','] args ++ [')'])) ∧
    '(' ∉ name ∧ args ≠ [] ∧ ∀ a ∈ args, Atom a

/-- A substitution whose keys are parenthesis-free and whose values are
atomic tokens that are not themselves keys. -/
def GoodSub (sub : Subst) : Prop :=
  (∀ kv ∈ sub, '(' ∉ kv.1) ∧
  ∀ kv ∈ sub, Atom kv.2 ∧ lookupSub kv.2 sub = none

instance (l : Str) : Decidable (Atom l) := by
  unfold Atom
  infer_instance

instance (sub : Subst) : Decidable (GoodSub sub) := by
  unfold GoodSub
  infer_instance

/-- The literal text begins with two negation markers. -/
def startsDoubleNeg (l : Str) : Bool :=
  decide (l.head? = some '¬') && decide (l.tail.head? = some '¬')

/-! ## Shared lemmas about the resolver and the saturation loop -/

/-- Every resolvent of two clauses is made of literals of those clauses. -/
theorem resolve_clause_subset {c c1 c2 : Finset Str}
    (h : c ∈ resolve_clause c1 c2) : c ⊆ c1 ∪ c2 := by
  unfold resolve_clause at h
  obtain ⟨l, _, rfl⟩ := Finset.mem_image.mp h
  exact Finset.union_subset_union (Finset.erase_subset _ _) (Finset.erase_subset _ _)

/-- A clause produced by one pass of the driver's double loop comes from
resolving two distinct clauses of the working set. -/
theorem step_mem_between {c : Finset Str} {cs : Finset (Finset Str)}
    (h : c ∈ stepResolvents cs) :
    ∃ c1 ∈ cs, ∃ c2 ∈ cs, c ∈ resolve_clause c1 c2 := by
  unfold stepResolvents at h
  obtain ⟨c1, h1, h⟩ := Finset.mem_biUnion.mp h
  obtain ⟨c2, h2, h⟩ := Finset.mem_biUnion.mp h
  by_cases hne : c1 ≠ c2
  · rw [if_pos hne] at h
    exact ⟨c1, h1, c2, h2, h⟩
  · rw [if_neg hne] at h
    exact absurd h (Finset.not_mem_empty c)

/-- A clause produced by one pass only uses literals already present. -/
theorem step_lits_subset {cs : Finset (Finset Str)} {c : Finset Str}
    (h : c ∈ stepResolvents cs) : c ⊆ allLits cs := by
  obtain ⟨c1, h1, c2, h2, hr⟩ := step_mem_between h
  refine (resolve_clause_subset hr).trans (Finset.union_subset ?_ ?_)
  · exact Finset.le_sup (f := id) h1
  · exact Finset.le_sup (f := id) h2

/-- One pass of the loop does not change the set of literal texts. -/
theorem allLits_union_step (cs : Finset (Finset Str)) :
    allLits (cs ∪ stepResolvents cs) = allLits cs := by
  apply le_antisymm
  · rw [allLits, allLits, Finset.sup_union]
    exact sup_le_iff.mpr ⟨le_rfl, Finset.sup_le (fun c hc => step_lits_subset hc)⟩
  · exact Finset.sup_mono Finset.subset_union_left

/-- Fuel bound for the saturation loop: once the working set cannot grow
past the powerset of a literal vocabulary, enough fuel makes it return. -/
theorem inferLoop_isSome (V : Finset Str) :
    ∀ (fuel : Nat) (cs : Finset (Finset Str)), (∀ c ∈ cs, c ⊆ V) →
      V.powerset.card < fuel + cs.card → (inferLoop fuel cs).isSome = true := by
  intro fuel
  induction fuel with
  | zero =>
    intro cs hsub hlt
    have h1 : cs ⊆ V.powerset := fun c hc => Finset.mem_powerset.mpr (hsub c hc)
    have h2 := Finset.card_le_card h1
    omega
  | succ m ih =>
    intro cs hsub hlt
    simp only [inferLoop]
    by_cases he : (∅ : Finset Str) ∈ stepResolvents cs
    · simp [he]
    · rw [if_neg he]
      by_cases hsb : stepResolvents cs ⊆ cs
      · simp [hsb]
      · rw [if_neg hsb]
        apply ih
        · intro c hc
          rcases Finset.mem_union.mp hc with h | h
          · exact hsub c h
          · exact (step_lits_subset h).trans (Finset.sup_le (fun d hd => hsub d hd))
        · obtain ⟨x, hx1, hx2⟩ : ∃ x ∈ stepResolvents cs, x ∉ cs := by
            by_contra hall
            push_neg at hall
            exact hsb (fun x hx => hall x hx)
          have hss : cs ⊂ cs ∪ stepResolvents cs :=
            (Finset.ssubset_iff_of_subset Finset.subset_union_left).mpr
              ⟨x, Finset.mem_union_right _ hx1, hx2⟩
          have hcard := Finset.card_lt_card hss
          omega

/-! ## C1: the King/Greedy/Evil inference -/

/-- C1: on the knowledge base
`{ {¬King(x),¬Greedy(x),Evil(x)}, {King(John)}, {Greedy(x)} }` with query
`{Evil(John)}`, `inference_by_resolution` returns False, not the True the
spec and the code's own comment expect: resolution matches complementary
literals by exact text only, so `King(John)` never cancels `¬King(x)`.
The one derivable resolvent is `{¬King(x),Evil(x)}`, after which the loop
reaches its fixpoint and returns False. -/
theorem inference_king_evil_eval :
    inference_by_resolution 5
      {{"¬King(x)".toList, "¬Greedy(x)".toList, "Evil(x)".toList},
       {"King(John)".toList}, {"Greedy(x)".toList}}
      {"Evil(John)".toList} = some false := by decide

/-! ## C5: termination of the saturation loop -/

/-- C5: for every knowledge base and query (the embedding's clause sets
are finite, so the literal vocabulary always is), the saturation loop
terminates — some fuel makes `inference_by_resolution` return a verdict —
and on the contradiction-free knowledge base `{ {A}, {B} }` with query
`{C}` it returns False at the very first iteration. -/
theorem inference_terminates :
    (∀ (kb : Finset (Finset Str)) (query : Finset Str),
      ∃ fuel, (inference_by_resolution fuel kb query).isSome = true) ∧
    inference_by_resolution 1 {{"A".toList}, {"B".toList}} {"C".toList} =
      some false := by
  constructor
  · intro kb query
    refine ⟨(allLits (kb ∪ {negate query})).powerset.card + 1, ?_⟩
    rw [inference_by_resolution]
    exact inferLoop_isSome (allLits (kb ∪ {negate query})) _ _
      (fun c hc => Finset.le_sup (f := id) hc) (by omega)
  · decide

/-! ## C9: the saturation loop introduces no new literal text -/

/-- C9: after any number of iterations, the driver's working set (seeded
with the knowledge base and negated query) contains exactly the literal
texts of the initial set, and is therefore contained in the powerset of
the initial literal vocabulary. -/
theorem working_set_literals_invariant (kb : Finset (Finset Str))
    (query : Finset Str) (n : Nat) :
    allLits (workingSet (kb ∪ {negate query}) n) =
      allLits (kb ∪ {negate query}) ∧
    workingSet (kb ∪ {negate query}) n ⊆
      (allLits (kb ∪ {negate query})).powerset := by
  have key : ∀ (start : Finset (Finset Str)) (m : Nat),
      allLits (workingSet start m) = allLits start := by
    intro start m
    induction m with
    | zero => rfl
    | succ k ih => rw [workingSet, allLits_union_step, ih]
  refine ⟨key _ n, ?_⟩
  intro c hc
  rw [Finset.mem_powerset]
  calc (c : Finset Str) ⊆ allLits (workingSet (kb ∪ {negate query}) n) :=
        Finset.le_sup (f := id) hc
    _ = allLits (kb ∪ {negate query}) := key _ n

/-- Witness for C9 at a concrete knowledge base and query. -/
theorem working_set_literals_invariant_wit :
    allLits (workingSet ({{"A".toList}, {"¬A".toList, "C".toList}} ∪
        {negate {"C".toList}}) 2) =
      allLits ({{"A".toList}, {"¬A".toList, "C".toList}} ∪
        {negate {"C".toList}}) :=
  (working_set_literals_invariant {{"A".toList}, {"¬A".toList, "C".toList}}
    {"C".toList} 2).1

/-! ## C2: failure versus the empty substitution -/

/-- C2 counterexample: the failing call `unify("A", "B")` and the
succeeding ground call `unify("A", "A")` return the very same value, the
empty dict, so a failure is not distinct from an empty-substitution
success. -/
theorem unify_failure_empty_cex :
    (unify 1 "A".toList "B".toList []).1 = some [] ∧
    (unify 1 "A".toList "A".toList []).1 = some [] := by decide

/-- C2 amended: `unify(t, t, sub)` does succeed with the given
substitution unchanged, but failure is returned as the empty dict — the
same value an empty-substitution success produces — rather than as a
distinct result. -/
theorem unify_empty_failure_encoding :
    (∀ (t : Str) (sub : Subst) (fuel : Nat),
      (unify (fuel + 1) t t sub).1 = some sub) ∧
    (unify 1 "A".toList "B".toList []).1 = some [] := by
  refine ⟨fun t sub fuel => ?_, by decide⟩
  simp [unify, unifyAux]

/-! ## C3: which complementary pairs the resolver finds -/

/-- C3 counterexample: take `clauseA = {¬A}`, `clauseB = {A}` and
`L = ¬A`.  Its negation-toggled complement `negate_literal L = A` is in
`clauseB`, yet the resolvent `(clauseA − {L}) ∪ (clauseB − {A}) = ∅` is
not among the resolvents: `resolve_clause` only ever prepends `¬`, so it
looks for `¬¬A` in `clauseB` and finds nothing. -/
theorem resolve_negated_literal_cex :
    negate_literal "¬A".toList ∈ ({"A".toList} : Finset Str) ∧
    (({"¬A".toList} : Finset Str).erase "¬A".toList ∪
        ({"A".toList} : Finset Str).erase (negate_literal "¬A".toList)) ∉
      resolve_clause {"¬A".toList} {"A".toList} := by decide

/-- C3 amended: for every literal `L` of `clauseA` such that the text
`¬L` (negation marker prepended, never stripped) occurs in `clauseB`,
the resolvent `(clauseA − {L}) ∪ (clauseB − {¬L})` is among the results;
a negated literal whose positive form occurs in `clauseB` yields nothing
from this side. -/
theorem resolve_mem_of_pos_complement (c1 c2 : Finset Str) (L : Str)
    (h1 : L ∈ c1) (h2 : ('¬' :: L) ∈ c2) :
    (c1.erase L ∪ c2.erase ('¬' :: L)) ∈ resolve_clause c1 c2 := by
  unfold resolve_clause
  exact Finset.mem_image.mpr ⟨L, Finset.mem_filter.mpr ⟨h1, h2⟩, rfl⟩

/-- Witness for the amended C3 on `resolve({A}, {¬A, C})`. -/
theorem resolve_mem_of_pos_complement_wit :
    (({"A".toList} : Finset Str).erase "A".toList ∪
        ({"¬A".toList, "C".toList} : Finset Str).erase ('¬' :: "A".toList)) ∈
      resolve_clause {"A".toList} {"¬A".toList, "C".toList} :=
  resolve_mem_of_pos_complement _ _ _ (by decide) (by decide)

/-! ## C6: what the term parser accepts and rejects -/

/-- C6 counterexample: `"Parent(x"` has unbalanced parentheses, yet
`tokenize` does not fail on it — it silently mis-parses it as function
`Parent` with the single empty-string argument (the trailing `x` is
discarded by `sentence[:-1]`). -/
theorem tokenize_unbalanced_cex :
    tokenize "Parent(x".toList = some ("Parent".toList, [[]]) := by decide

/-- C6 amended: `tokenize` performs no validation at all.  It fails —
with the ValueError of a two-way tuple unpacking, not a dedicated
ParseError — exactly when the input minus its final character contains no
`'('`; every other input, balanced or not, is accepted, unbalanced ones
being silently mis-parsed as in `"Parent(x" ↦ ("Parent", [""])`. -/
theorem tokenize_none_iff :
    (∀ s : Str, tokenize s = none ↔ '(' ∉ s.dropLast) ∧
    tokenize "Parent(x".toList = some ("Parent".toList, [[]]) := by
  have hsplit : ∀ (c : Char) (l : Str), splitFirst c l = none ↔ c ∉ l := by
    intro c l
    induction l with
    | nil => simp [splitFirst]
    | cons a rest ih =>
      by_cases hac : a = c
      · subst hac
        simp [splitFirst]
      · simp [splitFirst, hac, Option.map_eq_none', ih, Ne.symm hac]
  refine ⟨fun s => ?_, by decide⟩
  rw [tokenize, Option.map_eq_none']
  exact hsplit '(' s.dropLast

/-- Witness instantiating the amended C6 on an input with no `'('`. -/
theorem tokenize_none_iff_wit : tokenize "King".toList = none :=
  (tokenize_none_iff.1 "King".toList).mpr (by decide)

/-! ## C7: purity of unify -/

/-- C7 counterexample: `unify("A", "B", {})` performs I/O — its
fall-through failure branch prints a diagnostic line, so the transcript
is not empty. -/
theorem unify_prints_cex :
    (unify 1 "A".toList "B".toList []).2 ≠ [] := by decide

/-- C7 amended: the substitution is threaded and returned (the Python
code additionally updates the very dict object passed by the caller, an
aliasing fact below the value level of this embedding), but unify is not
free of I/O: the fall-through failure branch prints
`Failed to unify: ... with ...`, while a call on identical terms returns
the substitution unchanged and prints nothing. -/
theorem unify_transcript_only_on_failure :
    (∀ (t : Str) (sub : Subst) (fuel : Nat),
      (unify (fuel + 1) t t sub).2 = []) ∧
    (unify 1 "A".toList "B".toList []).2 =
      [failMsg "A".toList "B".toList] := by
  refine ⟨fun t sub fuel => ?_, by decide⟩
  simp [unify, unifyAux]

/-! ## C8: the negation shortcut inside unify -/

/-- A list never equals itself with one more element in front. -/
theorem ne_cons_self (l : Str) (a : Char) : l ≠ a :: l := by
  intro h
  exact List.cons_ne_self a l h.symm

/-- A list never equals itself with two more elements in front. -/
theorem ne_cons_cons_self (l : Str) (a b : Char) : l ≠ a :: b :: l := by
  intro h
  have hlen := congrArg List.length h
  simp at hlen
  omega

/-- C8 counterexample: CPython's `re.match(r'^[a-z]$', ·)` also matches a
lowercase letter followed by one trailing newline, so the two-character
term `"a\n"` — not a single lowercase letter — is a variable to the code.
At `term1 = "¬a\n"`, `term2 = "a\n"` (lengths 3 and 2, so neither is a
single-lowercase-letter term, and `term1` is exactly `'¬'` followed by
`term2`), unify takes the variable branch and binds `"a\n" -> "¬a\n"`
instead of returning the substitution unchanged. -/
theorem unify_negation_newline_cex :
    ("¬a\n".toList).length = 3 ∧ ("a\n".toList).length = 2 ∧
    "¬a\n".toList = '¬' :: "a\n".toList ∧
    unify 2 "¬a\n".toList "a\n".toList [] =
      (some [("a\n".toList, "¬a\n".toList)], []) := by decide

/-- C8 amended: when neither term is accepted by the code's variable test
`re.match(r'^[a-z]$', ·)` — a single ASCII lowercase letter, optionally
followed by one trailing newline — and one term is exactly `'¬'` followed
by the other's text, unify returns the given substitution unchanged (and
prints nothing). -/
theorem unify_negation_shortcut (t1 t2 : Str) (sub : Subst) (fuel : Nat)
    (h1 : isVarStr t1 = false) (h2 : isVarStr t2 = false)
    (h : t1 = '¬' :: t2 ∨ t2 = '¬' :: t1) :
    unify (fuel + 1) t1 t2 sub = (some sub, []) := by
  rcases h with h | h
  · subst h
    have hne : ('¬' :: t2) ≠ t2 := List.cons_ne_self '¬' t2
    simp [unify, unifyAux, hne, h1, h2]
  · subst h
    have hne : t1 ≠ '¬' :: t1 := ne_cons_self t1 '¬'
    have hne2 : t1 ≠ '¬' :: ('¬' :: t1) := ne_cons_cons_self t1 '¬' '¬'
    simp [unify, unifyAux, hne, hne2, h1, h2]

/-- Witness for C8: `unify("¬A", "A")` leaves a nonempty substitution
untouched. -/
theorem unify_negation_shortcut_wit :
    unify 1 "¬A".toList "A".toList [("q".toList, "R".toList)] =
      (some [("q".toList, "R".toList)], []) :=
  unify_negation_shortcut _ _ _ 0 (by decide) (by decide) (Or.inl (by decide))

/-! ## C10: negation is an involution away from double markers -/

/-- C10: negating twice is the identity on any literal that does not
already start with `¬¬`, and hence on any clause of such literals. -/
theorem negate_involutive :
    (∀ l : Str, startsDoubleNeg l = false →
      negate_literal (negate_literal l) = l) ∧
    (∀ c : Finset Str, (∀ l ∈ c, startsDoubleNeg l = false) →
      negate (negate c) = c) := by
  have hlit : ∀ l : Str, startsDoubleNeg l = false →
      negate_literal (negate_literal l) = l := by
    intro l h
    cases l with
    | nil => decide
    | cons a rest =>
      by_cases ha : a = '¬'
      · subst ha
        have hr : ¬ rest.head? = some '¬' := by
          intro hh
          simp [startsDoubleNeg, hh] at h
        have e1 : negate_literal ('¬' :: rest) = rest := by
          simp [negate_literal]
        rw [e1]
        simp only [negate_literal]
        rw [if_neg hr]
      · have e1 : negate_literal (a :: rest) = '¬' :: a :: rest := by
          simp [negate_literal, ha]
        rw [e1]
        simp [negate_literal]
  refine ⟨hlit, fun c hc => ?_⟩
  rw [negate, negate, Finset.image_image]
  calc c.image (negate_literal ∘ negate_literal)
      = c.image id :=
        Finset.image_congr (fun l hl => hlit l (hc l (Finset.mem_coe.mp hl)))
    _ = c := Finset.image_id

/-- Witness for C10 on a concrete clause. -/
theorem negate_involutive_wit :
    negate (negate {"King(John)".toList, "¬A".toList}) =
      {"King(John)".toList, "¬A".toList} :=
  negate_involutive.2 _ (by decide)

/-! ## C4: idempotence of substitution application -/

/-- A successful lookup returns an actual entry of the association list. -/
theorem lookupSub_mem {k v : Str} :
    ∀ {sub : Subst}, lookupSub k sub = some v → (k, v) ∈ sub := by
  intro sub
  induction sub with
  | nil => intro h; simp [lookupSub] at h
  | cons kv rest ih =>
    obtain ⟨a, w⟩ := kv
    intro h
    rw [lookupSub] at h
    by_cases hak : a = k
    · rw [if_pos hak] at h
      injection h with h2
      subst hak
      subst h2
      exact List.mem_cons_self _ _
    · rw [if_neg hak] at h
      exact List.mem_cons_of_mem _ (ih h)

/-- A literal containing a parenthesis is no key of a substitution whose
keys are parenthesis-free. -/
theorem lookupSub_none_of_paren {sub : Subst} (hk : ∀ kv ∈ sub, '(' ∉ kv.1)
    {l : Str} (hl : '(' ∈ l) : lookupSub l sub = none := by
  induction sub with
  | nil => rfl
  | cons kv rest ih =>
    obtain ⟨a, w⟩ := kv
    rw [lookupSub]
    have ha : a ≠ l := fun he =>
      hk (a, w) (List.mem_cons_self _ _) (by rw [he]; exact hl)
    rw [if_neg ha]
    exact ih (fun kv2 hkv => hk kv2 (List.mem_cons_of_mem _ hkv))

/-- dropWhile is the identity when no element satisfies the predicate. -/
theorem dropWhile_eq_self_of {p : Char → Bool} {l : Str}
    (h : ∀ c ∈ l, p c = false) : l.dropWhile p = l := by
  cases l with
  | nil => rfl
  | cons a rest => simp [List.dropWhile, h a (List.mem_cons_self _ _)]

/-- strip is the identity on text free of Python whitespace. -/
theorem strip_eq_self {l : Str} (h : ∀ c ∈ l, pyIsSpace c = false) :
    strip l = l := by
  rw [strip, dropWhile_eq_self_of h,
    dropWhile_eq_self_of (fun c hc => h c (List.mem_reverse.mp hc)),
    List.reverse_reverse]

/-- splitFirst finds the first separator. -/
theorem splitFirst_append {c : Char} {pre : Str} (h : c ∉ pre) (post : Str) :
    splitFirst c (pre ++ c :: post) = some (pre, post) := by
  induction pre with
  | nil => simp [splitFirst]
  | cons a rest ih =>
    simp only [List.mem_cons, not_or] at h
    rw [List.cons_append, splitFirst, if_neg (fun he => h.1 he.symm), ih h.2]
    rfl

/-- splitAll never returns the empty list. -/
theorem splitAll_ne_nil (c : Char) (l : Str) : splitAll c l ≠ [] := by
  cases l with
  | nil => simp [splitAll]
  | cons a rest =>
    rw [splitAll]
    split
    · simp
    · split <;> simp

/-- splitAll on separator-free text returns that text whole. -/
theorem splitAll_no_sep {c : Char} {l : Str} (h : c ∉ l) :
    splitAll c l = [l] := by
  induction l with
  | nil => rfl
  | cons a rest ih =>
    simp only [List.mem_cons, not_or] at h
    rw [splitAll, ih h.2]
    simp only []
    rw [if_neg (fun he => h.1 he.symm)]

/-- Splitting text that starts with a separator-free piece peels it off. -/
theorem splitAll_append_sep {c : Char} {a : Str} (h : c ∉ a) (m : Str) :
    splitAll c (a ++ c :: m) = a :: splitAll c m := by
  induction a with
  | nil =>
    rw [List.nil_append, splitAll]
    rcases hsp : splitAll c m with _ | ⟨hd, t⟩
    · exact absurd hsp (splitAll_ne_nil c m)
    · simp
  | cons d rest ih =>
    simp only [List.mem_cons, not_or] at h
    rw [List.cons_append, splitAll, ih h.2]
    simp only []
    rw [if_neg (fun he => h.1 he.symm)]

/-- splitAll is a left inverse of joining with the separator. -/
theorem splitAll_joinSep {c : Char} :
    ∀ {args : List Str}, args ≠ [] → (∀ a ∈ args, c ∉ a) →
      splitAll c (joinSep [c] args) = args := by
  intro args
  induction args with
  | nil => intro h _; exact absurd rfl h
  | cons a rest ih =>
    intro _ hmem
    cases rest with
    | nil => exact splitAll_no_sep (hmem a (List.mem_cons_self _ _))
    | cons b rest2 =>
      rw [joinSep]
      have hre : a ++ [c] ++ joinSep [c] (b :: rest2)
          = a ++ c :: joinSep [c] (b :: rest2) := by simp
      rw [hre, splitAll_append_sep (hmem a (List.mem_cons_self _ _)),
        ih (by simp) (fun x hx => hmem x (List.mem_cons_of_mem _ hx))]

/-- tokenize recovers the name and arguments of a flat canonical literal. -/
theorem tokenize_flat {name : Str} {args : List Str} (hn : '(' ∉ name)
    (hne : args ≠ []) (ha : ∀ a ∈ args, Atom a) :
    tokenize (name ++ ('(' :: (joinSep [','] args ++ [')'])))
      = some (name, args) := by
  have hdrop : (name ++ ('(' :: (joinSep [','] args ++ [')']))).dropLast
      = name ++ '(' :: joinSep [','] args := by
    have hre : name ++ ('(' :: (joinSep [','] args ++ [')']))
        = (name ++ '(' :: joinSep [','] args) ++ [')'] := by simp
    rw [hre, List.dropLast_concat]
  rw [tokenize, hdrop, splitFirst_append hn]
  simp only [Option.map_some']
  rw [splitAll_joinSep hne (fun a ha2 => (ha a ha2).2.1)]
  have hstrip : args.map strip = args := by
    conv_rhs => rw [← List.map_id args]
    exact List.map_congr_left (fun a ha2 => strip_eq_self (ha a ha2).2.2)
  rw [hstrip]

/-- Applying a substitution to a parenthesis-free literal is a lookup. -/
theorem apply_atom {a : Str} (h : '(' ∉ a) (sub : Subst) (fuel : Nat) :
    apply_single_substitution (fuel + 1) a sub =
      some ((lookupSub a sub).getD a) := by
  rw [apply_single_substitution]
  rcases hl : lookupSub a sub with _ | v
  · simp [h]
  · simp

/-- seqOpt over a map of total successes. -/
theorem seqOpt_map {g : Str → Option Str} {h : Str → Str} :
    ∀ {ts : List Str}, (∀ a ∈ ts, g a = some (h a)) →
      seqOpt (ts.map g) = some (ts.map h) := by
  intro ts
  induction ts with
  | nil => intro _; rfl
  | cons a rest ih =>
    intro hall
    rw [List.map_cons, hall a (List.mem_cons_self _ _), seqOpt,
      ih (fun x hx => hall x (List.mem_cons_of_mem _ hx))]
    rfl

/-- The image of an atom under a good substitution is an atom that is not
a key. -/
theorem goodSub_image {sub : Subst} (hg : GoodSub sub) {a : Str}
    (ha : Atom a) :
    Atom ((lookupSub a sub).getD a) ∧
      lookupSub ((lookupSub a sub).getD a) sub = none := by
  rcases hl : lookupSub a sub with _ | v
  · simp only [Option.getD_none]
    exact ⟨ha, hl⟩
  · simp only [Option.getD_some]
    have hv := hg.2 (a, v) (lookupSub_mem hl)
    exact ⟨hv.1, hv.2⟩

/-- Unfolding of apply_single_substitution on a compound literal that is
not a key of the substitution. -/
theorem apply_compound {l name : Str} {ts : List Str} {sub : Subst}
    (hlook : lookupSub l sub = none) (hp : '(' ∈ l)
    (htok : tokenize l = some (name, ts)) (fuel : Nat) :
    apply_single_substitution (fuel + 1) l sub =
      match seqOpt (ts.map (fun t => apply_single_substitution fuel t sub)) with
      | some rs => some (name ++ ('(' :: (joinSep [','] rs ++ [')'])))
      | none => none := by
  rw [apply_single_substitution, hlook]
  simp only [htok, hp, if_true]

/-- Applying a good substitution to a flat literal succeeds, and the
result is a fixed point of a second application. -/
theorem apply_flat {sub : Subst} (hg : GoodSub sub) {l : Str}
    (hf : FlatLit l) (fuel : Nat) :
    ∃ r, apply_single_substitution (fuel + 2) l sub = some r ∧
      apply_single_substitution (fuel + 2) r sub = some r := by
  rcases hf with hnp | ⟨name, args, rfl, hn, hne, hargs⟩
  · rcases hl : lookupSub l sub with _ | v
    · refine ⟨l, ?_, ?_⟩ <;> (rw [apply_atom hnp, hl]; rfl)
    · have hv := hg.2 (l, v) (lookupSub_mem hl)
      refine ⟨v, ?_, ?_⟩
      · rw [apply_atom hnp, hl]
        rfl
      · rw [apply_atom hv.1.1, hv.2]
        rfl
  · have hparen : '(' ∈ name ++ ('(' :: (joinSep [','] args ++ [')'])) := by
      simp
    have hlook := lookupSub_none_of_paren hg.1 hparen
    have htok := tokenize_flat hn hne hargs
    have happ1 : ∀ a ∈ args, apply_single_substitution (fuel + 1) a sub =
        some ((lookupSub a sub).getD a) :=
      fun a ha => apply_atom (hargs a ha).1 sub fuel
    have hseq := seqOpt_map happ1
    have hatoms2 : ∀ a ∈ args.map (fun a => (lookupSub a sub).getD a),
        Atom a ∧ lookupSub a sub = none := by
      intro a ha
      obtain ⟨b, hb, rfl⟩ := List.mem_map.mp ha
      exact goodSub_image hg (hargs b hb)
    have hne2 : args.map (fun a => (lookupSub a sub).getD a) ≠ [] := by
      intro hh
      exact hne (List.map_eq_nil_iff.mp hh)
    have hparen2 : '(' ∈ name ++ ('(' ::
        (joinSep [','] (args.map fun a => (lookupSub a sub).getD a) ++ [')'])) := by
      simp
    have hlook2 := lookupSub_none_of_paren hg.1 hparen2
    have htok2 := tokenize_flat hn hne2 (fun a ha => (hatoms2 a ha).1)
    have happ2 : ∀ a ∈ args.map (fun a => (lookupSub a sub).getD a),
        apply_single_substitution (fuel + 1) a sub = some a := by
      intro a ha
      rw [apply_atom (hatoms2 a ha).1.1, (hatoms2 a ha).2]
      rfl
    have hseq2 : seqOpt ((args.map fun a => (lookupSub a sub).getD a).map
        (fun t => apply_single_substitution (fuel + 1) t sub)) =
        some (args.map fun a => (lookupSub a sub).getD a) := by
      have h2 := seqOpt_map (h := id) happ2
      simpa using h2
    refine ⟨name ++ ('(' ::
      (joinSep [','] (args.map fun a => (lookupSub a sub).getD a) ++ [')'])), ?_, ?_⟩
    · rw [apply_compound hlook hparen htok (fuel + 1), hseq]
    · rw [apply_compound hlook2 hparen2 htok2 (fuel + 1), hseq2]

/-- C4 amended: substitution application is idempotent on clauses of flat
literals under a substitution whose keys are parenthesis-free and whose
values are atomic tokens outside the key set.  In general — even for
acyclic substitutions — it is not: chained bindings are substituted one
step per application, and compound values are mangled by re-tokenization
on the second pass (see the counterexample). -/
theorem apply_substitution_idempotent_flat (sub : Subst) (clause : Finset Str)
    (fuel : Nat) (hg : GoodSub sub) (hc : ∀ l ∈ clause, FlatLit l) :
    ∃ c1, apply_substitution (fuel + 2) clause sub = some c1 ∧
      apply_substitution (fuel + 2) c1 sub = some c1 := by
  classical
  have hper : ∀ l ∈ clause,
      ∃ r, apply_single_substitution (fuel + 2) l sub = some r ∧
        apply_single_substitution (fuel + 2) r sub = some r :=
    fun l hl => apply_flat hg (hc l hl) fuel
  have hall : ∀ l ∈ clause,
      (apply_single_substitution (fuel + 2) l sub).isSome = true := by
    intro l hl
    obtain ⟨r, hr, _⟩ := hper l hl
    simp [hr]
  refine ⟨clause.image
    (fun l => (apply_single_substitution (fuel + 2) l sub).getD []), ?_, ?_⟩
  · rw [apply_substitution, if_pos hall]
  · have hstable : ∀ m ∈ clause.image
        (fun l => (apply_single_substitution (fuel + 2) l sub).getD []),
        apply_single_substitution (fuel + 2) m sub = some m := by
      intro m hm
      obtain ⟨l, hl, rfl⟩ := Finset.mem_image.mp hm
      obtain ⟨r, hr, hrr⟩ := hper l hl
      rw [hr, Option.getD_some]
      exact hrr
    have hall2 : ∀ m ∈ clause.image
        (fun l => (apply_single_substitution (fuel + 2) l sub).getD []),
        (apply_single_substitution (fuel + 2) m sub).isSome = true := by
      intro m hm
      simp [hstable m hm]
    rw [apply_substitution, if_pos hall2]
    congr 1
    calc (clause.image
            (fun l => (apply_single_substitution (fuel + 2) l sub).getD [])).image
            (fun l => (apply_single_substitution (fuel + 2) l sub).getD [])
        = (clause.image
            (fun l => (apply_single_substitution (fuel + 2) l sub).getD [])).image
            id :=
          Finset.image_congr (fun m hm => by
            rw [hstable m (Finset.mem_coe.mp hm), Option.getD_some]
            rfl)
      _ = clause.image
            (fun l => (apply_single_substitution (fuel + 2) l sub).getD []) :=
          Finset.image_id

/-- Witness for the amended C4: `{King(x)}` under `{x -> John}`. -/
theorem apply_substitution_idempotent_flat_wit :
    ∃ c1, apply_substitution 2 {"King(x)".toList}
        [("x".toList, "John".toList)] = some c1 ∧
      apply_substitution 2 c1 [("x".toList, "John".toList)] = some c1 :=
  apply_substitution_idempotent_flat [("x".toList, "John".toList)]
    {"King(x)".toList} 0 (by decide)
    (by
      intro l hl
      rw [Finset.mem_singleton] at hl
      subst hl
      exact Or.inr ⟨"King".toList, ["x".toList], by decide, by decide,
        by decide, by decide⟩)

/-- C4 counterexample: the one-binding substitution `{x -> G(a,b)}` is
acyclic — `x` does not occur in `G(a,b)` — yet applying it twice to the
clause `{F(x)}` is not the same as applying it once: the first pass gives
`{F(G(a,b))}`, and the second pass re-tokenizes that text around every
comma, producing `{F(G(),b))}`. -/
theorem apply_substitution_not_idempotent_cex :
    Acyclic [("x".toList, "G(a,b)".toList)] ∧
    ((apply_substitution 9 {"F(x)".toList}
        [("x".toList, "G(a,b)".toList)]).bind
      (fun c => apply_substitution 9 c [("x".toList, "G(a,b)".toList)]) ≠
      apply_substitution 9 {"F(x)".toList}
        [("x".toList, "G(a,b)".toList)]) := by
  constructor
  · intro a h
    obtain ⟨c, hac, _⟩ := Relation.TransGen.head'_iff.mp h
    obtain ⟨v, hv, _⟩ := hac
    simp only [lookupSub] at hv
    rw [Option.ite_none_right_eq_some] at hv
    have hax : a = "x".toList := hv.1.symm
    obtain ⟨b, _, hba⟩ := Relation.TransGen.tail'_iff.mp h
    obtain ⟨w, hw, hseg⟩ := hba
    simp only [lookupSub] at hw
    rw [Option.ite_none_right_eq_some] at hw
    have hwv : w = "G(a,b)".toList := by
      have := hw.2
      injection this with h2
      exact h2.symm
    rw [hax, hwv] at hseg
    exact absurd hseg (by decide)
  · decide
